import Mathlib

/-
Verification of the alias-store logic of the `website_opener` repository
(src/config.rs). The persisted configuration holds a
`BTreeMap<String, String>` of aliases; we embed it as a list of
key-value pairs kept in strictly ascending key order, which is both the
iteration order and the lookup structure of a `BTreeMap`.
-/

namespace WebsiteOpener

/-- An alias mapping: the `aliases: BTreeMap<String, String>` field of
`Config`, embedded as an association list in ascending key order. -/
abbrev AliasMapping := List (String × String)

/-- Lookup of a key, as `BTreeMap::get`: the first pair with the given key. -/
def lookup : AliasMapping → String → Option String
  | [], _ => none
  | (a, b) :: t, k => if a = k then some b else lookup t k

/-- Insertion keeping ascending key order, as `BTreeMap::insert`:
replaces the value when the key is present. -/
def insertSorted : AliasMapping → String → String → AliasMapping
  | [], k, v => [(k, v)]
  | (a, b) :: t, k, v =>
    if k < a then (k, v) :: (a, b) :: t
    else if k = a then (k, v) :: t
    else (a, b) :: insertSorted t k v

/-- Removal of a key, as `BTreeMap::remove`: drops the first pair with the
given key. -/
def eraseKey : AliasMapping → String → AliasMapping
  | [], _ => []
  | (a, b) :: t, k => if a = k then t else (a, b) :: eraseKey t k

/-- Splitting a character sequence on the comma character, as Rust's
`str::split(',')`: adjacent commas and commas at either end produce empty
segments. -/
def splitOnComma : List Char → List (List Char)
  | [] => [[]]
  | c :: rest =>
    if c = ',' then [] :: splitOnComma rest
    else
      match splitOnComma rest with
      | [] => [[c]]
      | s :: ss => (c :: s) :: ss

/-- The Unicode White_Space property, the predicate tested by Rust's
`char::is_whitespace` and hence by `str::trim`: code points
U+0009..U+000D, U+0020, U+0085, U+00A0, U+1680, U+2000..U+200A, U+2028,
U+2029, U+202F, U+205F and U+3000. -/
def isRustWhitespace (c : Char) : Bool :=
  decide ((0x0009 ≤ c.toNat ∧ c.toNat ≤ 0x000D) ∨ c.toNat = 0x0020 ∨
    c.toNat = 0x0085 ∨ c.toNat = 0x00A0 ∨ c.toNat = 0x1680 ∨
    (0x2000 ≤ c.toNat ∧ c.toNat ≤ 0x200A) ∨ c.toNat = 0x2028 ∨
    c.toNat = 0x2029 ∨ c.toNat = 0x202F ∨ c.toNat = 0x205F ∨ c.toNat = 0x3000)

/-- Trimming leading and trailing Unicode whitespace from a character
sequence, as Rust's `str::trim`. -/
def trimChars (l : List Char) : List Char :=
  ((l.dropWhile isRustWhitespace).reverse.dropWhile isRustWhitespace).reverse

/-- The `parse_aliases` function of src/config.rs: split the raw string on
commas, trim each segment, and keep the nonempty segments. -/
def parse_aliases (s : String) : List String :=
  ((splitOnComma s.data).map (fun l => String.mk (trimChars l))).filter (fun t => t ≠ "")

/-- The loop of `remove_alias` in src/config.rs: remove each requested name
in order, failing with the `Alias not found` error as soon as a name is
absent from the in-memory mapping, which earlier iterations have already
mutated. -/
def removeAliasesLoop : AliasMapping → List String → Except String AliasMapping
  | m, [] => .ok m
  | m, a :: rest =>
    match lookup m a with
    | some _ => removeAliasesLoop (eraseKey m a) rest
    | none => .error ("Alias '" ++ a ++ "' not found")

/-- The `remove_alias` function of src/config.rs on a loaded store `disk`:
parse the request and run the removal loop; on success the resulting
mapping is the one passed to `save`. -/
def remove_alias (disk : AliasMapping) (raw : String) : Except String AliasMapping :=
  removeAliasesLoop disk (parse_aliases raw)

/-- The store that is on disk after `remove_alias` returns: `save` runs only
when the loop succeeded, so on error the persisted store is the old one. -/
def persistedAfterRemove (disk : AliasMapping) (raw : String) : AliasMapping :=
  match remove_alias disk raw with
  | .ok m => m
  | .error _ => disk

/-- A conflict during import: an alias present in both mappings with
different targets, as collected in the `conflicts` vector of
`import_aliases` in src/config.rs. -/
structure ConflictRecord where
  aliasName : String
  existing : String
  incoming : String
deriving DecidableEq, Repr

/-- The four possible outcomes of the interactive `Select` prompt of
`import_aliases` (selection indices 0, 1, 2, 3). -/
inductive Decision where
  | keepExisting
  | useIncoming
  | keepAllExisting
  | useAllIncoming
deriving DecidableEq, Repr

/-- The outcome of the classification loop of `import_aliases`: the
`new_aliases` and `conflicts` vectors and the `unchanged` counter. -/
structure Classified where
  newAliases : List (String × String)
  conflicts : List ConflictRecord
  unchanged : Nat
deriving Repr

/-- The first loop of `import_aliases` in src/config.rs: walk the incoming
mapping in order and classify each entry against the current mapping. -/
def classify (current : AliasMapping) : AliasMapping → Classified
  | [] => ⟨[], [], 0⟩
  | (a, url) :: rest =>
    let c := classify current rest
    match lookup current a with
    | some e =>
      if e = url then { c with unchanged := c.unchanged + 1 }
      else { c with conflicts := ⟨a, e, url⟩ :: c.conflicts }
    | none => { c with newAliases := (a, url) :: c.newAliases }

/-- The `Apply new aliases directly` loop of `import_aliases`. -/
def applyNew (m : AliasMapping) (l : List (String × String)) : AliasMapping :=
  l.foldl (fun acc p => insertSorted acc p.1 p.2) m

/-- The items offered by the interactive prompt of `import_aliases`, built
exactly as in src/config.rs from the `remaining` count. -/
def promptItems (remaining : Nat) (existing incoming : String) : List String :=
  if remaining > 1 then
    ["Keep existing (" ++ existing ++ ")",
     "Use imported (" ++ incoming ++ ")",
     "Keep all existing",
     "Use all imported"]
  else
    ["Keep existing (" ++ existing ++ ")",
     "Use imported (" ++ incoming ++ ")"]

/-- A record of one invocation of the interactive prompt: the conflict shown,
the `remaining` count computed by the code, the items offered, and the
decision returned by the policy. -/
structure PromptEvent where
  record : ConflictRecord
  remaining : Nat
  items : List String
  decision : Decision
deriving DecidableEq, Repr

/-- The state produced by the conflict-resolution loop of `import_aliases`:
the mapping, the `overwritten` and `skipped` counters, and the trace of
prompt invocations. -/
structure LoopResult where
  aliases : AliasMapping
  overwritten : Nat
  skipped : Nat
  events : List PromptEvent
deriving Repr

/-- The `Resolve conflicts interactively` loop of `import_aliases` in
src/config.rs, with the interactive `Select` replaced by a pure decision
policy. `total` is `conflicts.len()`; `bulk` is the `bulk_action` flag
(`some true` is use-all-imported, `some false` keep-all-existing). Every
consultation of the policy is recorded as a `PromptEvent`. -/
def resolveLoop (policy : ConflictRecord → Decision) (total : Nat) :
    List ConflictRecord → AliasMapping → Nat → Nat → Option Bool → LoopResult
  | [], m, ov, sk, _ => ⟨m, ov, sk, []⟩
  | c :: rest, m, ov, sk, some true =>
    resolveLoop policy total rest (insertSorted m c.aliasName c.incoming) (ov + 1) sk (some true)
  | _ :: rest, m, ov, sk, some false =>
    resolveLoop policy total rest m ov (sk + 1) (some false)
  | c :: rest, m, ov, sk, none =>
    let remaining := total - ov - sk
    let items := promptItems remaining c.existing c.incoming
    let d := policy c
    let ev : PromptEvent := ⟨c, remaining, items, d⟩
    match d with
    | .keepExisting =>
      let r := resolveLoop policy total rest m ov (sk + 1) none
      ⟨r.aliases, r.overwritten, r.skipped, ev :: r.events⟩
    | .useIncoming =>
      let r := resolveLoop policy total rest (insertSorted m c.aliasName c.incoming) (ov + 1) sk none
      ⟨r.aliases, r.overwritten, r.skipped, ev :: r.events⟩
    | .keepAllExisting =>
      let r := resolveLoop policy total rest m ov (sk + 1) (some false)
      ⟨r.aliases, r.overwritten, r.skipped, ev :: r.events⟩
    | .useAllIncoming =>
      let r := resolveLoop policy total rest (insertSorted m c.aliasName c.incoming) (ov + 1) sk (some true)
      ⟨r.aliases, r.overwritten, r.skipped, ev :: r.events⟩

/-- The outcome of `import_aliases`: the merged mapping, the summary counts
printed at the end, and the trace of prompt invocations. -/
structure ImportResult where
  aliases : AliasMapping
  added : Nat
  overwritten : Nat
  skipped : Nat
  unchanged : Nat
  events : List PromptEvent
deriving Repr

/-- The merge performed by `import_aliases` in src/config.rs: classify the
incoming entries, apply the new ones unconditionally, then resolve the
conflicts with the decision policy. -/
def importMerge (current incoming : AliasMapping) (policy : ConflictRecord → Decision) :
    ImportResult :=
  let cls := classify current incoming
  let afterNew := applyNew current cls.newAliases
  let r := resolveLoop policy cls.conflicts.length cls.conflicts afterNew 0 0 none
  ⟨r.aliases, cls.newAliases.length, r.overwritten, r.skipped, cls.unchanged, r.events⟩

/-- Number of events in a trace carrying a given decision. -/
def countDec (d : Decision) (evs : List PromptEvent) : Nat :=
  (evs.filter (fun e => e.decision = d)).length

/-- Overwriting each conflicting alias with its incoming target: what the
conflict loop does once `bulk_action` is use-all-imported. -/
def applyInc (m : AliasMapping) (cs : List ConflictRecord) : AliasMapping :=
  cs.foldl (fun acc c => insertSorted acc c.aliasName c.incoming) m

/-- Modelled from the spec: the serialization used by `save` and `load` in
src/config.rs is delegated to the external `toml` crate
(`toml::to_string_pretty` and `toml::from_str`), which is not part of this
repository. The spec requires only "a textual, human-editable key→value
format" that round-trips. We model the document emitted for a `Config`:
an `[aliases]` table header followed by one `"key" = "value"` line per
entry, escaping backslash and double quote inside the quoted strings. -/
def escapeChars : List Char → List Char
  | [] => []
  | c :: rest =>
    if c = '\\' ∨ c = '"' then '\\' :: c :: escapeChars rest
    else c :: escapeChars rest

/-- Modelled from the spec: the entry lines of the serialized document, in
mapping order. -/
def printEntries : List (String × String) → List Char
  | [] => []
  | (k, v) :: t =>
    '"' :: (escapeChars k.data ++ ('"' :: ' ' :: '=' :: ' ' :: '"' ::
      (escapeChars v.data ++ ('"' :: '\n' :: printEntries t))))

/-- The `[aliases]` table header line of the serialized document. -/
def headerChars : List Char := ['[', 'a', 'l', 'i', 'a', 's', 'e', 's', ']', '\n']

/-- Modelled from the spec: the document written by `save`. -/
def serializeConfig (m : AliasMapping) : String :=
  String.mk (headerChars ++ printEntries m)

/-- Modelled from the spec: parsing of one quoted string, consuming input
up to the closing unescaped double quote and undoing the escaping. -/
def parseQuoted : List Char → Option (List Char × List Char)
  | [] => none
  | '\\' :: c :: rest =>
    match parseQuoted rest with
    | none => none
    | some (s, r) => some (c :: s, r)
  | '"' :: rest => some ([], rest)
  | c :: rest =>
    match parseQuoted rest with
    | none => none
    | some (s, r) => some (c :: s, r)

/-- Modelled from the spec: parsing of the entry lines. The fuel argument
bounds the number of entries and is instantiated with the input length. -/
def parseEntriesFuel : Nat → List Char → Option (List (String × String))
  | _, [] => some []
  | 0, _ :: _ => none
  | fuel + 1, '"' :: rest =>
    match parseQuoted rest with
    | none => none
    | some (k, r1) =>
      match r1 with
      | ' ' :: '=' :: ' ' :: '"' :: r2 =>
        match parseQuoted r2 with
        | none => none
        | some (v, r3) =>
          match r3 with
          | '\n' :: r4 =>
            match parseEntriesFuel fuel r4 with
            | none => none
            | some t => some ((String.mk k, String.mk v) :: t)
          | _ => none
      | _ => none
  | _ + 1, _ :: _ => none

/-- Modelled from the spec: the parsing performed by `load`, recovering the
alias mapping from the serialized document. -/
def parseConfig (s : String) : Option AliasMapping :=
  match s.data with
  | '[' :: 'a' :: 'l' :: 'i' :: 'a' :: 's' :: 'e' :: 's' :: ']' :: '\n' :: rest =>
    parseEntriesFuel rest.length rest
  | _ => none

theorem lookup_insertSorted_self (m : AliasMapping) (k v : String) :
    lookup (insertSorted m k v) k = some v := by
  induction m with
  | nil => simp [insertSorted, lookup]
  | cons p t ih =>
    obtain ⟨a, b⟩ := p
    by_cases h1 : k < a
    · simp [insertSorted, h1, lookup]
    · by_cases h2 : k = a
      · simp [insertSorted, h1, h2, lookup]
      · have hne : a ≠ k := fun h => h2 h.symm
        simp [insertSorted, h1, h2, lookup, hne, ih]

theorem lookup_insertSorted_ne (m : AliasMapping) (k v a : String) (h : a ≠ k) :
    lookup (insertSorted m k v) a = lookup m a := by
  induction m with
  | nil => simp [insertSorted, lookup, h.symm]
  | cons p t ih =>
    obtain ⟨a0, b⟩ := p
    by_cases h1 : k < a0
    · simp [insertSorted, h1, lookup, h.symm]
    · by_cases h2 : k = a0
      · subst h2
        simp [insertSorted, h1, lookup, h.symm]
      · simp [insertSorted, h1, h2, lookup, ih]

theorem lookup_eraseKey_ne (m : AliasMapping) (k a : String) (h : a ≠ k) :
    lookup (eraseKey m k) a = lookup m a := by
  induction m with
  | nil => simp [eraseKey]
  | cons p t ih =>
    obtain ⟨a0, b⟩ := p
    by_cases h1 : a0 = k
    · subst h1
      simp [eraseKey, lookup, h.symm]
    · simp [eraseKey, h1, lookup, ih]

theorem lookup_eq_none_iff (m : AliasMapping) (k : String) :
    lookup m k = none ↔ ∀ p ∈ m, p.1 ≠ k := by
  induction m with
  | nil => simp [lookup]
  | cons p t ih =>
    obtain ⟨a, b⟩ := p
    by_cases h : a = k
    · subst h
      simp [lookup]
    · simp [lookup, h, ih]

theorem mem_of_lookup_eq_some (m : AliasMapping) (k v : String)
    (h : lookup m k = some v) : (k, v) ∈ m := by
  induction m with
  | nil => simp [lookup] at h
  | cons p t ih =>
    obtain ⟨a, b⟩ := p
    by_cases ha : a = k
    · subst ha
      simp [lookup] at h
      simp [h]
    · simp [lookup, ha] at h
      exact List.mem_cons_of_mem _ (ih h)

theorem keys_unique {m : AliasMapping} (hm : m.Pairwise (fun p q => p.1 ≠ q.1))
    {a x y : String} (hx : (a, x) ∈ m) (hy : (a, y) ∈ m) : x = y := by
  induction m with
  | nil => simp at hx
  | cons p t ih =>
    rcases List.pairwise_cons.mp hm with ⟨hp, ht⟩
    rcases List.mem_cons.mp hx with hx1 | hx1
    · rcases List.mem_cons.mp hy with hy1 | hy1
      · rw [← hx1] at hy1
        exact (Prod.mk.injEq _ _ _ _ ▸ hy1.symm).2
      · exact absurd rfl (hx1 ▸ hp (a, y) hy1)
    · rcases List.mem_cons.mp hy with hy1 | hy1
      · exact absurd rfl (hy1 ▸ hp (a, x) hx1)
      · exact ih ht hx1 hy1

theorem lookup_applyNew_not_mem (l : List (String × String)) (m : AliasMapping) (a : String)
    (h : ∀ p ∈ l, p.1 ≠ a) : lookup (applyNew m l) a = lookup m a := by
  induction l generalizing m with
  | nil => rfl
  | cons p t ih =>
    have hp : p.1 ≠ a := h p (List.mem_cons_self _ _)
    have ht : ∀ q ∈ t, q.1 ≠ a := fun q hq => h q (List.mem_cons_of_mem _ hq)
    calc lookup (applyNew (insertSorted m p.1 p.2) t) a
        = lookup (insertSorted m p.1 p.2) a := ih _ ht
      _ = lookup m a := lookup_insertSorted_ne _ _ _ _ (fun hh => hp hh.symm)

theorem lookup_applyNew_mem (l : List (String × String)) (m : AliasMapping) (a u : String)
    (hnd : l.Pairwise (fun p q => p.1 ≠ q.1)) (hmem : (a, u) ∈ l) :
    lookup (applyNew m l) a = some u := by
  induction l generalizing m with
  | nil => simp at hmem
  | cons p t ih =>
    rcases List.pairwise_cons.mp hnd with ⟨hp, ht⟩
    rcases List.mem_cons.mp hmem with h1 | h1
    · subst h1
      have hrest : ∀ q ∈ t, q.1 ≠ a := fun q hq => (hp q hq).symm
      calc lookup (applyNew (insertSorted m a u) t) a
          = lookup (insertSorted m a u) a := lookup_applyNew_not_mem _ _ _ hrest
        _ = some u := lookup_insertSorted_self _ _ _
    · exact ih _ ht h1

theorem classify_counts (cur : AliasMapping) (l : AliasMapping) :
    (classify cur l).newAliases.length + (classify cur l).conflicts.length +
      (classify cur l).unchanged = l.length := by
  induction l with
  | nil => rfl
  | cons p t ih =>
    obtain ⟨a, url⟩ := p
    simp only [classify]
    rcases hl : lookup cur a with _ | e
    · simpa [List.length_cons] using by omega
    · by_cases he : e = url
      · simp only [he, if_pos rfl]
        simpa [List.length_cons] using by omega
      · simp only [if_neg he]
        simpa [List.length_cons] using by omega

theorem classify_new_mem (cur : AliasMapping) (l : AliasMapping) (p : String × String)
    (h : p ∈ (classify cur l).newAliases) : p ∈ l ∧ lookup cur p.1 = none := by
  induction l with
  | nil => simp [classify] at h
  | cons q t ih =>
    obtain ⟨a, url⟩ := q
    simp only [classify] at h
    rcases hl : lookup cur a with _ | e
    · rw [hl] at h
      simp only [List.mem_cons] at h
      rcases h with h | h
      · subst h
        exact ⟨List.mem_cons_self _ _, hl⟩
      · rcases ih h with ⟨h1, h2⟩
        exact ⟨List.mem_cons_of_mem _ h1, h2⟩
    · rw [hl] at h
      by_cases he : e = url
      · simp only [he, if_pos rfl] at h
        rcases ih h with ⟨h1, h2⟩
        exact ⟨List.mem_cons_of_mem _ h1, h2⟩
      · simp only [if_neg he] at h
        rcases ih h with ⟨h1, h2⟩
        exact ⟨List.mem_cons_of_mem _ h1, h2⟩

theorem classify_mem_new (cur : AliasMapping) (l : AliasMapping) (a u : String)
    (hmem : (a, u) ∈ l) (hcur : lookup cur a = none) :
    (a, u) ∈ (classify cur l).newAliases := by
  induction l with
  | nil => simp at hmem
  | cons q t ih =>
    obtain ⟨b, url⟩ := q
    rcases List.mem_cons.mp hmem with h1 | h1
    · rcases Prod.mk.injEq .. ▸ h1 with ⟨hb, hu⟩
      subst hb
      subst hu
      simp [classify, hcur]
    · simp only [classify]
      rcases hl : lookup cur b with _ | e
      · simp [ih h1]
      · by_cases he : e = url
        · simpa [he] using ih h1
        · simpa [he] using ih h1

theorem classify_conflicts_mem (cur : AliasMapping) (l : AliasMapping) (c : ConflictRecord)
    (h : c ∈ (classify cur l).conflicts) :
    (c.aliasName, c.incoming) ∈ l ∧ lookup cur c.aliasName = some c.existing ∧
      c.existing ≠ c.incoming := by
  induction l with
  | nil => simp [classify] at h
  | cons q t ih
  =>
    obtain ⟨a, url⟩ := q
    simp only [classify] at h
    rcases hl : lookup cur a with _ | e
    · rw [hl] at h
      rcases ih h with ⟨h1, h2, h3⟩
      exact ⟨List.mem_cons_of_mem _ h1, h2, h3⟩
    · rw [hl] at h
      by_cases he : e = url
      · simp only [he, if_pos rfl] at h
        rcases ih h with ⟨h1, h2, h3⟩
        exact ⟨List.mem_cons_of_mem _ h1, h2, h3⟩
      · simp only [if_neg he, List.mem_cons] at h
        rcases h with h | h
        · subst h
          exact ⟨List.mem_cons_self _ _, hl, he⟩
        · rcases ih h with ⟨h1, h2, h3⟩
          exact ⟨List.mem_cons_of_mem _ h1, h2, h3⟩

theorem classify_unchanged_pos (cur : AliasMapping) (l : AliasMapping) (a u : String)
    (hmem : (a, u) ∈ l) (hcur : lookup cur a = some u) :
    1 ≤ (classify cur l).unchanged := by
  induction l with
  | nil => simp at hmem
  | cons q t ih =>
    obtain ⟨b, url⟩ := q
    simp only [classify]
    rcases List.mem_cons.mp hmem with h1 | h1
    · rcases Prod.mk.injEq .. ▸ h1 with ⟨hb, hu⟩
      subst hb
      subst hu
      simp [hcur]
    · rcases hl : lookup cur b with _ | e
      · simpa using ih h1
      · by_cases he : e = url
        · simp [he]
        · simpa [he] using ih h1

theorem classify_new_sublist (cur : AliasMapping) (l : AliasMapping) :
    (classify cur l).newAliases.Sublist l := by
  induction l with
  | nil => simp [classify]
  | cons q t ih =>
    obtain ⟨a, url⟩ := q
    simp only [classify]
    rcases lookup cur a with _ | e
    · exact List.Sublist.cons₂ _ ih
    · by_cases he : e = url
      · simpa [he] using List.Sublist.cons _ ih
      · simpa [he] using List.Sublist.cons _ ih

theorem classify_conflict_keys_sublist (cur : AliasMapping) (l : AliasMapping) :
    ((classify cur l).conflicts.map ConflictRecord.aliasName).Sublist (l.map Prod.fst) := by
  induction l with
  | nil => simp [classify]
  | cons q t ih =>
    obtain ⟨a, url⟩ := q
    simp only [classify, List.map_cons]
    rcases lookup cur a with _ | e
    · exact List.Sublist.cons _ ih
    · by_cases he : e = url
      · simpa [he] using List.Sublist.cons a ih
      · simpa [he] using List.Sublist.cons₂ a ih

theorem countDec_cons (d : Decision) (e : PromptEvent) (evs : List PromptEvent) :
    countDec d (e :: evs) = (if e.decision = d then 1 else 0) + countDec d evs := by
  by_cases h : e.decision = d <;> simp [countDec, List.filter_cons, h] <;> omega

theorem resolveLoop_bulk_false (p : ConflictRecord → Decision) (t : Nat)
    (cs : List ConflictRecord) (m : AliasMapping) (ov sk : Nat) :
    resolveLoop p t cs m ov sk (some false) = ⟨m, ov, sk + cs.length, []⟩ := by
  induction cs generalizing sk with
  | nil => simp [resolveLoop]
  | cons c rest ih =>
    have hl : sk + 1 + rest.length = sk + (c :: rest).length := by
      simp only [List.length_cons]
      omega
    rw [resolveLoop, ih, hl]

theorem resolveLoop_bulk_true (p : ConflictRecord → Decision) (t : Nat)
    (cs : List ConflictRecord) (m : AliasMapping) (ov sk : Nat) :
    resolveLoop p t cs m ov sk (some true) = ⟨applyInc m cs, ov + cs.length, sk, []⟩ := by
  induction cs generalizing m ov with
  | nil => simp [resolveLoop, applyInc]
  | cons c rest ih =>
    have hl : ov + 1 + rest.length = ov + (c :: rest).length := by
      simp only [List.length_cons]
      omega
    rw [resolveLoop, ih, hl]
    rfl

theorem resolveLoop_counts (p : ConflictRecord → Decision) (t : Nat)
    (cs : List ConflictRecord) (m : AliasMapping) (ov sk : Nat) (bulk : Option Bool) :
    (resolveLoop p t cs m ov sk bulk).overwritten + (resolveLoop p t cs m ov sk bulk).skipped =
      ov + sk + cs.length := by
  induction cs generalizing m ov sk bulk with
  | nil => simp [resolveLoop]
  | cons c rest ih =>
    simp only [List.length_cons]
    rcases bulk with _ | b
    · rcases hp : p c with _ | _ | _ | _
      · simp only [resolveLoop, hp]
        have h := ih m ov (sk + 1) none
        omega
      · simp only [resolveLoop, hp]
        have h := ih (insertSorted m c.aliasName c.incoming) (ov + 1) sk none
        omega
      · simp only [resolveLoop, hp]
        have h := ih m ov (sk + 1) (some false)
        omega
      · simp only [resolveLoop, hp]
        have h := ih (insertSorted m c.aliasName c.incoming) (ov + 1) sk (some true)
        omega
    · rcases b with _ | _
      · rw [resolveLoop]
        have h := ih m ov (sk + 1) (some false)
        omega
      · rw [resolveLoop]
        have h := ih (insertSorted m c.aliasName c.incoming) (ov + 1) sk (some true)
        omega

theorem resolveLoop_events_record_mem (p : ConflictRecord → Decision) (t : Nat)
    (cs : List ConflictRecord) (m : AliasMapping) (ov sk : Nat) (bulk : Option Bool)
    (e : PromptEvent) (he : e ∈ (resolveLoop p t cs m ov sk bulk).events) : e.record ∈ cs := by
  induction cs generalizing m ov sk bulk with
  | nil => simp [resolveLoop] at he
  | cons c rest ih =>
    rcases bulk with _ | b
    · rcases hp : p c with _ | _ | _ | _ <;>
        · simp only [resolveLoop, hp] at he
          rcases List.mem_cons.mp he with h1 | h1
          · subst h1
            exact List.mem_cons_self _ _
          · exact List.mem_cons_of_mem _ (ih _ _ _ _ h1)
    · rcases b with _ | _
      · rw [resolveLoop] at he
        exact List.mem_cons_of_mem _ (ih _ _ _ _ he)
      · rw [resolveLoop] at he
        exact List.mem_cons_of_mem _ (ih _ _ _ _ he)

theorem resolveLoop_lookup_frame (p : ConflictRecord → Decision) (t : Nat)
    (cs : List ConflictRecord) (m : AliasMapping) (ov sk : Nat) (bulk : Option Bool)
    (a : String) (ha : ∀ c ∈ cs, c.aliasName ≠ a) :
    lookup (resolveLoop p t cs m ov sk bulk).aliases a = lookup m a := by
  induction cs generalizing m ov sk bulk with
  | nil => simp [resolveLoop]
  | cons c rest ih =>
    have hc : c.aliasName ≠ a := ha c (List.mem_cons_self _ _)
    have hrest : ∀ d ∈ rest, d.aliasName ≠ a := fun d hd => ha d (List.mem_cons_of_mem _ hd)
    have hins : lookup (insertSorted m c.aliasName c.incoming) a = lookup m a :=
      lookup_insertSorted_ne _ _ _ _ (fun h => hc h.symm)
    rcases bulk with _ | b
    · rcases hp : p c with _ | _ | _ | _
      · simp only [resolveLoop, hp]
        exact ih _ _ _ _ hrest
      · simp only [resolveLoop, hp]
        rw [ih _ _ _ _ hrest]
        exact hins
      · simp only [resolveLoop, hp]
        exact ih _ _ _ _ hrest
      · simp only [resolveLoop, hp]
        rw [ih _ _ _ _ hrest]
        exact hins
    · rcases b with _ | _
      · rw [resolveLoop]
        exact ih _ _ _ _ hrest
      · rw [resolveLoop]
        rw [ih _ _ _ _ hrest]
        exact hins

theorem resolveLoop_none_spec (p : ConflictRecord → Decision) (t : Nat)
    (cs : List ConflictRecord) (m : AliasMapping) (ov sk : Nat) :
    (∀ e ∈ (resolveLoop p t cs m ov sk none).events.dropLast,
        e.decision = Decision.keepExisting ∨ e.decision = Decision.useIncoming) ∧
    ((resolveLoop p t cs m ov sk none).events = [] → cs = []) ∧
    (∀ e, (resolveLoop p t cs m ov sk none).events.getLast? = some e →
      (e.decision = Decision.keepAllExisting →
        (resolveLoop p t cs m ov sk none).skipped =
          sk + countDec Decision.keepExisting (resolveLoop p t cs m ov sk none).events + 1 +
            (cs.length - (resolveLoop p t cs m ov sk none).events.length) ∧
        (resolveLoop p t cs m ov sk none).overwritten =
          ov + countDec Decision.useIncoming (resolveLoop p t cs m ov sk none).events) ∧
      (e.decision = Decision.useAllIncoming →
        (resolveLoop p t cs m ov sk none).overwritten =
          ov + countDec Decision.useIncoming (resolveLoop p t cs m ov sk none).events + 1 +
            (cs.length - (resolveLoop p t cs m ov sk none).events.length) ∧
        (resolveLoop p t cs m ov sk none).skipped =
          sk + countDec Decision.keepExisting (resolveLoop p t cs m ov sk none).events)) := by
  induction cs generalizing m ov sk with
  | nil =>
    refine ⟨?_, fun _ => rfl, ?_⟩
    · intro e he
      simp [resolveLoop] at he
    · intro e he
      simp [resolveLoop] at he
  | cons c rest ih =>
    rcases hp : p c with _ | _ | _ | _
    · -- the policy keeps this one: one event, then the loop continues on the rest
      obtain ⟨ih1, ih2, ih3⟩ := ih m ov (sk + 1)
      simp only [resolveLoop, hp]
      rcases hev : (resolveLoop p t rest m ov (sk + 1) none).events with _ | ⟨e0, evs0⟩
      · have hrest : rest = [] := ih2 hev
        subst hrest
        simp only [resolveLoop] at hev ⊢
        refine ⟨?_, ?_, ?_⟩
        · intro e he
          simp at he
        · intro h
          simp at h
        · intro e he
          simp at he
          subst he
          constructor
          · intro hd
            simp at hd
          · intro hd
            simp at hd
      · rw [hev] at ih1 ih2 ih3
        refine ⟨?_, ?_, ?_⟩
        · intro e he
          rw [List.dropLast_cons₂] at he
          rcases List.mem_cons.mp he with h1 | h1
          · subst h1
            left
            rfl
          · exact ih1 e h1
        · intro h
          simp at h
        · intro e he
          rw [List.getLast?_cons_cons] at he
          obtain ⟨h31, h32⟩ := ih3 e he
          constructor
          · intro hd
            obtain ⟨hsk, hov⟩ := h31 hd
            constructor
            · rw [hsk]
              simp only [countDec_cons, List.length_cons]
              try simp
              all_goals omega
            · rw [hov]
              simp only [countDec_cons, List.length_cons]
              try simp
              all_goals omega
          · intro hd
            obtain ⟨hov, hsk⟩ := h32 hd
            constructor
            · rw [hov]
              simp only [countDec_cons, List.length_cons]
              try simp
              all_goals omega
            · rw [hsk]
              simp only [countDec_cons, List.length_cons]
              try simp
              all_goals omega
    · -- the policy uses this one: one event, then the loop continues on the rest
      obtain ⟨ih1, ih2, ih3⟩ :=
        ih (insertSorted m c.aliasName c.incoming) (ov + 1) sk
      simp only [resolveLoop, hp]
      rcases hev : (resolveLoop p t rest (insertSorted m c.aliasName c.incoming)
          (ov + 1) sk none).events with _ | ⟨e0, evs0⟩
      · have hrest : rest = [] := ih2 hev
        subst hrest
        simp only [resolveLoop] at hev ⊢
        refine ⟨?_, ?_, ?_⟩
        · intro e he
          simp at he
        · intro h
          simp at h
        · intro e he
          simp at he
          subst he
          constructor
          · intro hd
            simp at hd
          · intro hd
            simp at hd
      · rw [hev] at ih1 ih2 ih3
        refine ⟨?_, ?_, ?_⟩
        · intro e he
          rw [List.dropLast_cons₂] at he
          rcases List.mem_cons.mp he with h1 | h1
          · subst h1
            right
            rfl
          · exact ih1 e h1
        · intro h
          simp at h
        · intro e he
          rw [List.getLast?_cons_cons] at he
          obtain ⟨h31, h32⟩ := ih3 e he
          constructor
          · intro hd
            obtain ⟨hsk, hov⟩ := h31 hd
            constructor
            · rw [hsk]
              simp only [countDec_cons, List.length_cons]
              try simp
              all_goals omega
            · rw [hov]
              simp only [countDec_cons, List.length_cons]
              try simp
              all_goals omega
          · intro hd
            obtain ⟨hov, hsk⟩ := h32 hd
            constructor
            · rw [hov]
              simp only [countDec_cons, List.length_cons]
              try simp
              all_goals omega
            · rw [hsk]
              simp only [countDec_cons, List.length_cons]
              try simp
              all_goals omega
    · -- keep all existing: this one is the last event, the rest is skipped in bulk
      simp only [resolveLoop, hp, resolveLoop_bulk_false]
      refine ⟨?_, ?_, ?_⟩
      · intro e he
        simp at he
      · intro h
        simp at h
      · intro e he
        simp at he
        subst he
        constructor
        · intro _
          constructor
          · simp [countDec, List.length_cons]
            all_goals omega
          · simp [countDec]
        · intro hd
          simp at hd
    · -- use all imported: this one is the last event, the rest is overwritten in bulk
      simp only [resolveLoop, hp, resolveLoop_bulk_true]
      refine ⟨?_, ?_, ?_⟩
      · intro e he
        simp at he
      · intro h
        simp at h
      · intro e he
        simp at he
        subst he
        constructor
        · intro hd
          simp at hd
        · intro _
          constructor
          · simp [countDec, List.length_cons]
            all_goals omega
          · simp [countDec]

theorem resolveLoop_events_spec (p : ConflictRecord → Decision) (t : Nat)
    (cs : List ConflictRecord) (m : AliasMapping) (ov sk : Nat)
    (hinv : t = ov + sk + cs.length) :
    ∀ i e, (resolveLoop p t cs m ov sk none).events.get? i = some e →
      cs.get? i = some e.record ∧ i < cs.length ∧
      e.remaining = cs.length - i ∧
      e.items = promptItems (cs.length - i) e.record.existing e.record.incoming := by
  induction cs generalizing m ov sk with
  | nil =>
    intro i e he
    simp [resolveLoop] at he
  | cons c rest ih =>
    intro i e he
    rcases hp : p c with _ | _ | _ | _
    · simp only [resolveLoop, hp] at he
      cases i with
      | zero =>
        simp only [List.get?] at he
        injection he with he
        subst he
        refine ⟨rfl, by simp, ?_, ?_⟩
        · show t - ov - sk = (c :: rest).length - 0
          simp only [List.length_cons, Nat.sub_zero] at hinv ⊢
          omega
        · show promptItems (t - ov - sk) c.existing c.incoming =
            promptItems ((c :: rest).length - 0) c.existing c.incoming
          have harith : t - ov - sk = (c :: rest).length - 0 := by
            simp only [List.length_cons, Nat.sub_zero] at hinv ⊢
            omega
          rw [harith]
      | succ i =>
        simp only [List.get?] at he
        have hinv' : t = ov + (sk + 1) + rest.length := by
          simp only [List.length_cons] at hinv
          omega
        obtain ⟨hrec, hlt, hrem, hitems⟩ := ih m ov (sk + 1) hinv' i e he
        have harith : (c :: rest).length - (i + 1) = rest.length - i := by
          simp only [List.length_cons]
          omega
        refine ⟨hrec, by simp only [List.length_cons]; omega, ?_, ?_⟩
        · rw [harith]
          exact hrem
        · rw [harith]
          exact hitems
    · simp only [resolveLoop, hp] at he
      cases i with
      | zero =>
        simp only [List.get?] at he
        injection he with he
        subst he
        refine ⟨rfl, by simp, ?_, ?_⟩
        · show t - ov - sk = (c :: rest).length - 0
          simp only [List.length_cons, Nat.sub_zero] at hinv ⊢
          omega
        · show promptItems (t - ov - sk) c.existing c.incoming =
            promptItems ((c :: rest).length - 0) c.existing c.incoming
          have harith : t - ov - sk = (c :: rest).length - 0 := by
            simp only [List.length_cons, Nat.sub_zero] at hinv ⊢
            omega
          rw [harith]
      | succ i =>
        simp only [List.get?] at he
        have hinv' : t = (ov + 1) + sk + rest.length := by
          simp only [List.length_cons] at hinv
          omega
        obtain ⟨hrec, hlt, hrem, hitems⟩ :=
          ih (insertSorted m c.aliasName c.incoming) (ov + 1) sk hinv' i e he
        have harith : (c :: rest).length - (i + 1) = rest.length - i := by
          simp only [List.length_cons]
          omega
        refine ⟨hrec, by simp only [List.length_cons]; omega, ?_, ?_⟩
        · rw [harith]
          exact hrem
        · rw [harith]
          exact hitems
    · simp only [resolveLoop, hp, resolveLoop_bulk_false] at he
      cases i with
      | zero =>
        simp only [List.get?] at he
        injection he with he
        subst he
        refine ⟨rfl, by simp, ?_, ?_⟩
        · show t - ov - sk = (c :: rest).length - 0
          simp only [List.length_cons, Nat.sub_zero] at hinv ⊢
          omega
        · show promptItems (t - ov - sk) c.existing c.incoming =
            promptItems ((c :: rest).length - 0) c.existing c.incoming
          have harith : t - ov - sk = (c :: rest).length - 0 := by
            simp only [List.length_cons, Nat.sub_zero] at hinv ⊢
            omega
          rw [harith]
      | succ i =>
        simp only [List.get?] at he
        cases he
    · simp only [resolveLoop, hp, resolveLoop_bulk_true] at he
      cases i with
      | zero =>
        simp only [List.get?] at he
        injection he with he
        subst he
        refine ⟨rfl, by simp, ?_, ?_⟩
        · show t - ov - sk = (c :: rest).length - 0
          simp only [List.length_cons, Nat.sub_zero] at hinv ⊢
          omega
        · show promptItems (t - ov - sk) c.existing c.incoming =
            promptItems ((c :: rest).length - 0) c.existing c.incoming
          have harith : t - ov - sk = (c :: rest).length - 0 := by
            simp only [List.length_cons, Nat.sub_zero] at hinv ⊢
            omega
          rw [harith]
      | succ i =>
        simp only [List.get?] at he
        cases he

theorem mk_data_eq (s : String) : String.mk s.data = s := by
  cases s
  rfl

theorem parseQuoted_escape (s rest : List Char) :
    parseQuoted (escapeChars s ++ '"' :: rest) = some (s, rest) := by
  induction s with
  | nil => simp [escapeChars, parseQuoted]
  | cons c t ih =>
    by_cases h : c = '\\' ∨ c = '"'
    · simp only [escapeChars, if_pos h, List.cons_append, parseQuoted, ih]
    · push_neg at h
      obtain ⟨h1, h2⟩ := h
      simp only [escapeChars, if_neg (by tauto : ¬(c = '\\' ∨ c = '"')), List.cons_append]
      rw [show parseQuoted (c :: (escapeChars t ++ '"' :: rest)) =
          match parseQuoted (escapeChars t ++ '"' :: rest) with
          | none => none
          | some (s, r) => some (c :: s, r) from by
        conv_lhs => rw [parseQuoted.eq_def]
        simp [h1, h2]]
      rw [ih]

theorem parseEntriesFuel_print (l : List (String × String)) :
    ∀ fuel, l.length ≤ fuel → parseEntriesFuel fuel (printEntries l) = some l := by
  induction l with
  | nil =>
    intro fuel _
    rcases fuel with _ | f <;> rfl
  | cons p t ih =>
    obtain ⟨k, v⟩ := p
    intro fuel hf
    rcases fuel with _ | f
    · simp at hf
    · have ht : t.length ≤ f := by
        simp only [List.length_cons] at hf
        omega
      simp only [printEntries, parseEntriesFuel, parseQuoted_escape, ih f ht, mk_data_eq]

theorem printEntries_length_ge (l : List (String × String)) :
    l.length ≤ (printEntries l).length := by
  induction l with
  | nil => simp [printEntries]
  | cons p t ih =>
    obtain ⟨k, v⟩ := p
    simp only [printEntries, List.length_cons, List.length_append]
    omega

theorem find?_congr_on {α : Type} (l : List α) (p q : α → Bool)
    (h : ∀ x ∈ l, p x = q x) : l.find? p = l.find? q := by
  induction l with
  | nil => rfl
  | cons a t ih =>
    rw [List.find?, List.find?, h a (List.mem_cons_self _ _),
      ih (fun x hx => h x (List.mem_cons_of_mem _ hx))]

theorem removeAliasesLoop_find (ns : List String) (disk : AliasMapping) (b : String)
    (hnd : ns.Nodup) (hb : ns.find? (fun n => (lookup disk n).isNone) = some b) :
    removeAliasesLoop disk ns = .error ("Alias '" ++ b ++ "' not found") := by
  induction ns generalizing disk with
  | nil => simp at hb
  | cons n rest ih =>
    rcases List.nodup_cons.mp hnd with ⟨hn, hrest⟩
    rcases hl : lookup disk n with _ | v
    · rw [List.find?_cons_of_pos _ (by simp [hl])] at hb
      have hbn : b = n := by
        cases hb
        rfl
      subst hbn
      simp [removeAliasesLoop, hl]
    · rw [List.find?_cons_of_neg _ (by simp [hl])] at hb
      have hcong : rest.find? (fun m => (lookup (eraseKey disk n) m).isNone) =
          rest.find? (fun m => (lookup disk m).isNone) := by
        refine find?_congr_on _ _ _ (fun x hx => ?_)
        rw [lookup_eraseKey_ne disk n x (fun hxn => hn (hxn ▸ hx))]
      rw [show removeAliasesLoop disk (n :: rest) =
          removeAliasesLoop (eraseKey disk n) rest from by simp [removeAliasesLoop, hl]]
      exact ih (eraseKey disk n) hrest (hcong.trans hb)

theorem removeAliasesLoop_missing (ns : List String) (disk : AliasMapping)
    (h : ∃ n ∈ ns, lookup disk n = none) :
    ∃ b, removeAliasesLoop disk ns = .error ("Alias '" ++ b ++ "' not found") := by
  induction ns generalizing disk with
  | nil => simp at h
  | cons a rest ih =>
    rcases hl : lookup disk a with _ | v
    · exact ⟨a, by simp [removeAliasesLoop, hl]⟩
    · obtain ⟨n, hn, hln⟩ := h
      have hna : n ≠ a := by
        intro hna
        rw [hna, hl] at hln
        cases hln
      have h1 : n ∈ rest := by
        rcases List.mem_cons.mp hn with h1 | h1
        · exact absurd h1 hna
        · exact h1
      have hln' : lookup (eraseKey disk a) n = none := by
        rw [lookup_eraseKey_ne disk a n hna]
        exact hln
      rw [show removeAliasesLoop disk (a :: rest) =
          removeAliasesLoop (eraseKey disk a) rest from by simp [removeAliasesLoop, hl]]
      exact ih (eraseKey disk a) ⟨n, h1, hln'⟩

/-- C1: for every current mapping, incoming mapping and decision policy,
the import merge classifies each incoming alias into exactly one of new,
unchanged, conflicting (the three class sizes sum to the size of the
incoming mapping), and the resulting counts satisfy
added + overwritten + skipped + unchanged = size of the incoming mapping. -/
theorem import_counts_invariant (cur inc : AliasMapping) (p : ConflictRecord → Decision) :
    (importMerge cur inc p).added + (importMerge cur inc p).overwritten +
      (importMerge cur inc p).skipped + (importMerge cur inc p).unchanged = inc.length ∧
    (classify cur inc).newAliases.length + (classify cur inc).conflicts.length +
      (classify cur inc).unchanged = inc.length := by
  have h2 := classify_counts cur inc
  refine ⟨?_, h2⟩
  have hc := resolveLoop_counts p (classify cur inc).conflicts.length
    (classify cur inc).conflicts (applyNew cur (classify cur inc).newAliases) 0 0 none
  show (classify cur inc).newAliases.length +
      (resolveLoop p (classify cur inc).conflicts.length (classify cur inc).conflicts
        (applyNew cur (classify cur inc).newAliases) 0 0 none).overwritten +
      (resolveLoop p (classify cur inc).conflicts.length (classify cur inc).conflicts
        (applyNew cur (classify cur inc).newAliases) 0 0 none).skipped +
      (classify cur inc).unchanged = inc.length
  omega

/-- C2: an alias absent from the current mapping and present in the incoming
mapping is mapped to its incoming target after the merge, whatever the
policy decides, and the policy is never consulted for it (no prompt event
mentions it). -/
theorem new_entries_applied (cur inc : AliasMapping) (p : ConflictRecord → Decision)
    (a u : String) (hinc : inc.Pairwise (fun x y => x.1 ≠ y.1))
    (hcur : lookup cur a = none) (him : lookup inc a = some u) :
    lookup (importMerge cur inc p).aliases a = some u ∧
    ∀ e ∈ (importMerge cur inc p).events, e.record.aliasName ≠ a := by
  have hmem : (a, u) ∈ inc := mem_of_lookup_eq_some inc a u him
  have hnewmem : (a, u) ∈ (classify cur inc).newAliases :=
    classify_mem_new cur inc a u hmem hcur
  have hnd : (classify cur inc).newAliases.Pairwise (fun x y => x.1 ≠ y.1) :=
    List.Pairwise.sublist (classify_new_sublist cur inc) hinc
  have hconf : ∀ c ∈ (classify cur inc).conflicts, c.aliasName ≠ a := by
    intro c hc hca
    obtain ⟨_, h2, _⟩ := classify_conflicts_mem cur inc c hc
    rw [hca, hcur] at h2
    cases h2
  constructor
  · show lookup (resolveLoop p (classify cur inc).conflicts.length
      (classify cur inc).conflicts (applyNew cur (classify cur inc).newAliases)
      0 0 none).aliases a = some u
    rw [resolveLoop_lookup_frame _ _ _ _ _ _ _ _ hconf]
    exact lookup_applyNew_mem _ _ _ _ hnd hnewmem
  · intro e he
    have he' : e ∈ (resolveLoop p (classify cur inc).conflicts.length
        (classify cur inc).conflicts (applyNew cur (classify cur inc).newAliases)
        0 0 none).events := he
    exact hconf _ (resolveLoop_events_record_mem _ _ _ _ _ _ _ e he')

/-- C2 witness: a fresh alias is imported unchanged even under a policy that
would keep existing entries. -/
theorem new_entries_applied_witness :
    lookup (importMerge [("b", "2")] [("a", "x")]
      (fun _ => Decision.keepExisting)).aliases "a" = some "x" :=
  (new_entries_applied [("b", "2")] [("a", "x")] (fun _ => Decision.keepExisting)
    "a" "x" (by decide) (by decide) (by decide)).1

/-- C4: an alias present in both mappings with the same target is counted as
unchanged, lands in neither the new nor the conflicting class, and the
policy is never consulted for it. -/
theorem unchanged_never_consulted (cur inc : AliasMapping) (p : ConflictRecord → Decision)
    (a targ : String) (hinc : inc.Pairwise (fun x y => x.1 ≠ y.1))
    (hcur : lookup cur a = some targ) (him : lookup inc a = some targ) :
    1 ≤ (importMerge cur inc p).unchanged ∧
    (∀ q ∈ (classify cur inc).newAliases, q.1 ≠ a) ∧
    (∀ c ∈ (classify cur inc).conflicts, c.aliasName ≠ a) ∧
    (∀ e ∈ (importMerge cur inc p).events, e.record.aliasName ≠ a) := by
  have hmem : (a, targ) ∈ inc := mem_of_lookup_eq_some inc a targ him
  have hconf : ∀ c ∈ (classify cur inc).conflicts, c.aliasName ≠ a := by
    intro c hc hca
    obtain ⟨h1, h2, h3⟩ := classify_conflicts_mem cur inc c hc
    rw [hca] at h1 h2
    have hit : c.incoming = targ := keys_unique hinc h1 hmem
    rw [hcur] at h2
    injection h2 with h2
    exact h3 (by rw [← h2, hit])
  refine ⟨?_, ?_, hconf, ?_⟩
  · show 1 ≤ (classify cur inc).unchanged
    exact classify_unchanged_pos cur inc a targ hmem hcur
  · intro q hq hqa
    obtain ⟨_, h2⟩ := classify_new_mem cur inc q hq
    rw [hqa, hcur] at h2
    cases h2
  · intro e he
    have he' : e ∈ (resolveLoop p (classify cur inc).conflicts.length
        (classify cur inc).conflicts (applyNew cur (classify cur inc).newAliases)
        0 0 none).events := he
    exact hconf _ (resolveLoop_events_record_mem _ _ _ _ _ _ _ e he')

/-- C4 witness: the scenario of the spec, where `a` maps to the same target
on both sides. -/
theorem unchanged_never_consulted_witness :
    1 ≤ (importMerge [("a", "http://x"), ("b", "http://y")]
      [("a", "http://x"), ("b", "http://z"), ("c", "http://w")]
      (fun _ => Decision.keepExisting)).unchanged :=
  (unchanged_never_consulted [("a", "http://x"), ("b", "http://y")]
    [("a", "http://x"), ("b", "http://z"), ("c", "http://w")]
    (fun _ => Decision.keepExisting) "a" "http://x"
    (by decide) (by decide) (by decide)).1

/-- C7: parse_aliases splits the raw string on commas, trims Unicode
whitespace from each segment, drops the empty segments, and keeps exactly
the nonempty trimmed segments; in particular it sends " claude, c ,," to
["claude", "c"], and a segment of non-ASCII whitespace such as U+00A0 is
trimmed away and dropped. -/
theorem parseNames_spec :
    parse_aliases " claude, c ,," = ["claude", "c"] ∧
    parse_aliases "a,\u00A0" = ["a"] ∧
    (∀ raw : String, ∀ s ∈ parse_aliases raw, s ≠ "" ∧
      s ∈ (splitOnComma raw.data).map (fun l => String.mk (trimChars l))) ∧
    (∀ raw : String, ∀ l ∈ splitOnComma raw.data,
      String.mk (trimChars l) ≠ "" → String.mk (trimChars l) ∈ parse_aliases raw) := by
  refine ⟨by decide, by decide, ?_, ?_⟩
  · intro raw s hs
    rw [parse_aliases, List.mem_filter] at hs
    obtain ⟨h1, h2⟩ := hs
    exact ⟨by simpa using h2, h1⟩
  · intro raw l hl hne
    rw [parse_aliases, List.mem_filter]
    exact ⟨List.mem_map_of_mem _ hl, by simpa using hne⟩

/-- C7 witness: the first segment of the scenario input is kept, nonempty and
the trim of a comma segment. -/
theorem parseNames_spec_witness :
    "claude" ≠ "" ∧
    "claude" ∈ (splitOnComma (" claude, c ,," : String).data).map
      (fun l => String.mk (trimChars l)) :=
  parseNames_spec.2.2.1 " claude, c ,," "claude" (by decide)

/-- C9: parsing the serialized form of any mapping, the empty one included,
recovers exactly that mapping. -/
theorem save_load_roundtrip (m : AliasMapping) :
    parseConfig (serializeConfig m) = some m := by
  show parseEntriesFuel (printEntries m).length (printEntries m) = some m
  exact parseEntriesFuel_print m _ (printEntries_length_ge m)

/-- C10: an alias present only in the current mapping is untouched by the
merge and keeps its original target in the result. -/
theorem current_only_untouched (cur inc : AliasMapping) (p : ConflictRecord → Decision)
    (a targ : String) (hcur : lookup cur a = some targ) (hinc : lookup inc a = none) :
    lookup (importMerge cur inc p).aliases a = some targ := by
  have hkeys : ∀ q ∈ inc, q.1 ≠ a := (lookup_eq_none_iff inc a).mp hinc
  have hconf : ∀ c ∈ (classify cur inc).conflicts, c.aliasName ≠ a := by
    intro c hc
    obtain ⟨h1, _, _⟩ := classify_conflicts_mem cur inc c hc
    exact hkeys _ h1
  have hnew : ∀ q ∈ (classify cur inc).newAliases, q.1 ≠ a := by
    intro q hq
    obtain ⟨h1, _⟩ := classify_new_mem cur inc q hq
    exact hkeys _ h1
  show lookup (resolveLoop p (classify cur inc).conflicts.length
    (classify cur inc).conflicts (applyNew cur (classify cur inc).newAliases)
    0 0 none).aliases a = some targ
  rw [resolveLoop_lookup_frame _ _ _ _ _ _ _ _ hconf]
  rw [lookup_applyNew_not_mem _ _ _ hnew]
  exact hcur

/-- C10 witness: an alias only in the current store survives an import that
overwrites everything else. -/
theorem current_only_untouched_witness :
    lookup (importMerge [("a", "u"), ("b", "v")] [("b", "w")]
      (fun _ => Decision.useIncoming)).aliases "a" = some "u" :=
  current_only_untouched [("a", "u"), ("b", "v")] [("b", "w")]
    (fun _ => Decision.useIncoming) "a" "u" (by decide) (by decide)

/-- C3: in a single merge, a bulk decision (keep all existing or use all
incoming) can only be the last policy consultation, and once it is taken
every remaining conflict is resolved by the sticky bulk decision, as
reflected in the final skipped and overwritten counts. -/
theorem bulk_mode_monotonic (cur inc : AliasMapping) (p : ConflictRecord → Decision) :
    (∀ e ∈ (importMerge cur inc p).events.dropLast,
        e.decision = Decision.keepExisting ∨ e.decision = Decision.useIncoming) ∧
    (∀ e, (importMerge cur inc p).events.getLast? = some e →
      (e.decision = Decision.keepAllExisting →
        (importMerge cur inc p).skipped =
          countDec Decision.keepExisting (importMerge cur inc p).events + 1 +
            ((classify cur inc).conflicts.length - (importMerge cur inc p).events.length) ∧
        (importMerge cur inc p).overwritten =
          countDec Decision.useIncoming (importMerge cur inc p).events) ∧
      (e.decision = Decision.useAllIncoming →
        (importMerge cur inc p).overwritten =
          countDec Decision.useIncoming (importMerge cur inc p).events + 1 +
            ((classify cur inc).conflicts.length - (importMerge cur inc p).events.length) ∧
        (importMerge cur inc p).skipped =
          countDec Decision.keepExisting (importMerge cur inc p).events)) := by
  have he : (importMerge cur inc p).events =
      (resolveLoop p (classify cur inc).conflicts.length (classify cur inc).conflicts
        (applyNew cur (classify cur inc).newAliases) 0 0 none).events := rfl
  have hsk : (importMerge cur inc p).skipped =
      (resolveLoop p (classify cur inc).conflicts.length (classify cur inc).conflicts
        (applyNew cur (classify cur inc).newAliases) 0 0 none).skipped := rfl
  have hov : (importMerge cur inc p).overwritten =
      (resolveLoop p (classify cur inc).conflicts.length (classify cur inc).conflicts
        (applyNew cur (classify cur inc).newAliases) 0 0 none).overwritten := rfl
  rw [he, hsk, hov]
  obtain ⟨h1, _, h3⟩ := resolveLoop_none_spec p (classify cur inc).conflicts.length
    (classify cur inc).conflicts (applyNew cur (classify cur inc).newAliases) 0 0
  refine ⟨h1, ?_⟩
  intro e hlast
  obtain ⟨h31, h32⟩ := h3 e hlast
  constructor
  · intro hd
    obtain ⟨ha, hb⟩ := h31 hd
    exact ⟨by omega, by omega⟩
  · intro hd
    obtain ⟨ha, hb⟩ := h32 hd
    exact ⟨by omega, by omega⟩

/-- C3 witness: a run where the second consultation answers keep all
existing; the third conflict is then skipped without consultation, for a
final count of three skipped. -/
theorem bulk_mode_monotonic_witness :
    (importMerge [("a", "1"), ("b", "2"), ("c", "3")] [("a", "x"), ("b", "y"), ("c", "z")]
      (fun c => if c.aliasName = "a" then Decision.keepExisting
        else Decision.keepAllExisting)).skipped = 3 := by
  have h := ((bulk_mode_monotonic [("a", "1"), ("b", "2"), ("c", "3")]
      [("a", "x"), ("b", "y"), ("c", "z")]
      (fun c => if c.aliasName = "a" then Decision.keepExisting
        else Decision.keepAllExisting)).2
    ⟨⟨"b", "2", "y"⟩, 2, ["Keep existing (2)", "Use imported (y)", "Keep all existing",
      "Use all imported"], Decision.keepAllExisting⟩ (by decide)).1 (by decide)
  rw [h.1]
  decide

/-- C5 counterexample: for the request "a,a,b" on the store mapping a to u,
the name b is a requested name absent from the mapping and is the first
missing name in request order, yet remove fails naming a: the duplicate
second a is missing only because the first a was already removed from the
in-memory mapping. -/
theorem remove_first_missing_counterexample :
    (∃ n ∈ parse_aliases "a,a,b", lookup [("a", "u")] n = none) ∧
    (parse_aliases "a,a,b").find? (fun n => (lookup [("a", "u")] n).isNone) = some "b" ∧
    remove_alias [("a", "u")] "a,a,b" = Except.error "Alias 'a' not found" := by
  refine ⟨⟨"b", by decide, by decide⟩, by decide, ?_⟩
  rfl

/-- C5 (amended): if some requested name is absent from the pre-remove
mapping then remove fails with a not-found error and the save step is never
reached, so the persisted store equals its pre-remove value — for every
request, duplicated names included; when the request contains no duplicate
names, the error names the first requested name absent from the pre-remove
mapping. -/
theorem remove_missing_aborts (disk : AliasMapping) (raw : String)
    (h : ∃ n ∈ parse_aliases raw, lookup disk n = none) :
    (∃ b, remove_alias disk raw = Except.error ("Alias '" ++ b ++ "' not found") ∧
      ((parse_aliases raw).Nodup →
        (parse_aliases raw).find? (fun n => (lookup disk n).isNone) = some b)) ∧
    persistedAfterRemove disk raw = disk := by
  by_cases hnd : (parse_aliases raw).Nodup
  · have hsome : ((parse_aliases raw).find? (fun n => (lookup disk n).isNone)).isSome := by
      rw [List.find?_isSome]
      obtain ⟨n, hn, hln⟩ := h
      exact ⟨n, hn, by simp [hln]⟩
    obtain ⟨b, hb⟩ := Option.isSome_iff_exists.mp hsome
    have herr : remove_alias disk raw = Except.error ("Alias '" ++ b ++ "' not found") :=
      removeAliasesLoop_find (parse_aliases raw) disk b hnd hb
    exact ⟨⟨b, herr, fun _ => hb⟩, by simp only [persistedAfterRemove, herr]⟩
  · obtain ⟨b, herr⟩ := removeAliasesLoop_missing (parse_aliases raw) disk h
    have herr' : remove_alias disk raw = Except.error ("Alias '" ++ b ++ "' not found") :=
      herr
    exact ⟨⟨b, herr', fun hnd2 => absurd hnd2 hnd⟩,
      by simp only [persistedAfterRemove, herr']⟩

/-- C5 witness: the spec scenario, remove("a,missing") on the store mapping
a to url: remove fails with a not-found error that (the request being
duplicate-free) names missing, and the persisted store still contains a. -/
theorem remove_missing_aborts_witness :
    (∃ b, remove_alias [("a", "url")] "a,missing" =
        Except.error ("Alias '" ++ b ++ "' not found") ∧
      ((parse_aliases "a,missing").Nodup →
        (parse_aliases "a,missing").find?
          (fun n => (lookup [("a", "url")] n).isNone) = some b)) ∧
    persistedAfterRemove [("a", "url")] "a,missing" = [("a", "url")] :=
  remove_missing_aborts [("a", "url")] "a,missing" ⟨"missing", by decide, by decide⟩

/-- C6: when the incoming mapping is in ascending key order (the iteration
order of the ordered-by-key map), the collected conflicts are in ascending
alias order, and the merge outcome is a function of the current mapping,
the incoming mapping and the policy decisions alone: two runs with the same
inputs and the same decisions produce identical results. -/
theorem conflicts_order_deterministic (cur inc : AliasMapping)
    (hs : inc.Pairwise (fun x y => x.1 < y.1)) :
    (classify cur inc).conflicts.Pairwise (fun c d => c.aliasName < d.aliasName) ∧
    ∀ p q : ConflictRecord → Decision, (∀ c, p c = q c) →
      importMerge cur inc p = importMerge cur inc q := by
  constructor
  · have h1 : (inc.map Prod.fst).Pairwise (fun x y => x < y) := List.pairwise_map.mpr hs
    have h2 := List.Pairwise.sublist (classify_conflict_keys_sublist cur inc) h1
    exact List.pairwise_map.mp h2
  · intro p q hpq
    rw [funext hpq]

/-- C6 witness: a sorted incoming mapping gives sorted conflicts, and two
extensionally equal policies give identical merges. -/
theorem conflicts_order_deterministic_witness :
    (classify [("a", "1"), ("b", "2")] [("a", "x"), ("b", "y")]).conflicts.Pairwise
      (fun c d => c.aliasName < d.aliasName) ∧
    importMerge [("a", "1"), ("b", "2")] [("a", "x"), ("b", "y")]
        (fun _ => Decision.keepExisting) =
      importMerge [("a", "1"), ("b", "2")] [("a", "x"), ("b", "y")]
        (fun c => if c.aliasName = c.aliasName then Decision.keepExisting
          else Decision.useIncoming) := by
  have hab : ("a" : String) < "b" := by
    rw [String.lt_iff_toList_lt]
    decide
  have hs : List.Pairwise (fun x y : String × String => x.1 < y.1)
      [("a", "x"), ("b", "y")] := by
    refine List.Pairwise.cons ?_ (List.pairwise_singleton _ _)
    intro y hy
    rw [List.mem_singleton] at hy
    subst hy
    exact hab
  obtain ⟨h1, h2⟩ := conflicts_order_deterministic [("a", "1"), ("b", "2")]
    [("a", "x"), ("b", "y")] hs
  exact ⟨h1, h2 _ _ (fun c => by simp)⟩

/-- C8: at the i-th consultation of the policy the number of conflicts still
unresolved is the total number of conflicts minus i, and the prompt offers
exactly the four choices keep existing, use imported, keep all existing,
use all imported when more than one conflict remains unresolved, and
exactly the first two choices when exactly one remains. -/
theorem prompt_choices (cur inc : AliasMapping) (p : ConflictRecord → Decision)
    (i : Nat) (e : PromptEvent)
    (he : (importMerge cur inc p).events.get? i = some e) :
    1 ≤ (classify cur inc).conflicts.length - i ∧
    e.remaining = (classify cur inc).conflicts.length - i ∧
    (1 < (classify cur inc).conflicts.length - i →
      e.items = ["Keep existing (" ++ e.record.existing ++ ")",
        "Use imported (" ++ e.record.incoming ++ ")",
        "Keep all existing", "Use all imported"]) ∧
    ((classify cur inc).conflicts.length - i = 1 →
      e.items = ["Keep existing (" ++ e.record.existing ++ ")",
        "Use imported (" ++ e.record.incoming ++ ")"]) := by
  have he' : (resolveLoop p (classify cur inc).conflicts.length
      (classify cur inc).conflicts (applyNew cur (classify cur inc).newAliases)
      0 0 none).events.get? i = some e := he
  obtain ⟨hrec, hlt, hrem, hitems⟩ :=
    resolveLoop_events_spec p (classify cur inc).conflicts.length
      (classify cur inc).conflicts (applyNew cur (classify cur inc).newAliases)
      0 0 (by omega) i e he'
  refine ⟨by omega, hrem, ?_, ?_⟩
  · intro h
    rw [hitems]
    simp only [promptItems]
    rw [if_pos h]
  · intro h
    rw [hitems]
    simp only [promptItems]
    rw [if_neg (by omega)]

/-- C8 witness: the first of two conflicts prompts with all four choices. -/
theorem prompt_choices_witness :
    (⟨⟨"a", "1", "x"⟩, 2, ["Keep existing (1)", "Use imported (x)",
        "Keep all existing", "Use all imported"], Decision.keepExisting⟩ : PromptEvent).items =
      ["Keep existing (" ++ "1" ++ ")", "Use imported (" ++ "x" ++ ")",
        "Keep all existing", "Use all imported"] :=
  (prompt_choices [("a", "1"), ("b", "2")] [("a", "x"), ("b", "y")]
    (fun _ => Decision.keepExisting) 0
    ⟨⟨"a", "1", "x"⟩, 2, ["Keep existing (1)", "Use imported (x)",
      "Keep all existing", "Use all imported"], Decision.keepExisting⟩
    (by decide)).2.2.1 (by decide)

end WebsiteOpener
